import Mathlib

/-
Verification development for the bevy state-machine core (crates/bevy_state)
and the fog uniform preparation system (crates/bevy_pbr/src/render/fog.rs).

The state crate's root (src/crates/bevy_state/src/lib.rs) only declares the
modules (state, condition, state_scoped) and documents the three state kinds;
the implementations of those modules are not part of the analyzed sources, so
the transition engine below is modelled from the specification document, as
marked on each definition.  The fog code is translated directly from
src/crates/bevy_pbr/src/render/fog.rs.

State values are drawn from Nat (states are equality-comparable value domains;
a concrete countable carrier loses no generality for the properties proved
here) and a possibly-absent value is an Option Nat.  Kind identities are Nat.
-/

/-- Modelled from the spec: the three state-kind variants of the State Kind
Trait Set (section 2 item 2; the `state` module implementing `States`,
`SubStates` and `ComputedStates` is not among the analyzed sources).
A Sub kind carries its parent kind, the predicate over the parent's
(possibly absent) value, and the kind-supplied default-on-activation value.
A Computed kind carries its ordered source kinds and its derivation
function, applied to the list of all source values when none is absent. -/
inductive KindSpec where
  | primary : KindSpec
  | sub : Nat → (Option Nat → Bool) → Nat → KindSpec
  | computed : List Nat → (List Nat → Nat) → KindSpec

/-- Modelled from the crate-root module documentation
(src/crates/bevy_state/src/lib.rs): standard `States` "can only be changed by
manually setting the `NextState<S>` resource"; `SubStates` "can be changed
manually using `NextState<S>`"; `ComputedStates` "are fully derived from other
states" and provide only a `compute` method, with no manual mutation path.
This is the capability distinction deciding which kinds the pending-value
mutation entry point accepts. -/
def freelyMutable : KindSpec → Bool
  | KindSpec.primary => true
  | KindSpec.sub _ _ _ => true
  | KindSpec.computed _ _ => false

/-- Modelled from the spec: a Transition Record
(kind identity, old value option, new value option), section 3. -/
structure TransitionRecord where
  kind : Nat
  old : Option Nat
  new : Option Nat
deriving DecidableEq, Repr

/-- Modelled from the spec: the registered dependency graph plus the cached
orders computed at registration — the processing order of Primary kinds
(request order) and the topological order of Sub/Computed kinds
(section 4.2: "computed once at registration and cached"). -/
structure Config where
  kinds : Nat → KindSpec
  primaryOrder : List Nat
  topoOrder : List Nat

/-- Modelled from the spec: the State Value Store (section 4.1) — per-kind
current value (or absent) and at most one pending value per kind. -/
structure Store where
  current : Nat → Option Nat
  pending : Nat → Option Nat

/-- Modelled from the spec: `set_pending` / `request_transition`
(sections 4.1 and 6) — stores the requested value as the kind's single
pending slot, overwriting any previous pending value (last-write-wins);
no other side effect. -/
def set_pending (s : Store) (k : Nat) (v : Nat) : Store :=
  { s with pending := fun j => if j = k then some v else s.pending j }

/-- The direct dependency edges of a kind: a Sub kind depends on its parent,
a Computed kind on its sources, a Primary kind on nothing (spec section 3,
"Dependency Edge"). -/
def deps (kinds : Nat → KindSpec) (k : Nat) : List Nat :=
  match kinds k with
  | KindSpec.primary => []
  | KindSpec.sub parent _ _ => [parent]
  | KindSpec.computed sources _ => sources

/-- All-present sequencing of source values: some list iff no source is
absent (spec section 4.2, Computed rule). -/
def seqOpt : List (Option Nat) → Option (List Nat)
  | [] => some []
  | none :: _ => none
  | some v :: rest => (seqOpt rest).map (fun l => v :: l)

/-- Modelled from the spec: the recomputation rule for one kind against a
value assignment (section 4.2 step 2).  A Sub kind's predicate is evaluated
against the parent value in `cur`; if false the new value is absent, if true
it is the prior value in `cur` when present, else the default-on-activation
value.  A Computed kind's new value is the derivation applied to all source
values when none is absent, else absent.  A Primary kind is left unchanged
by the sweep's derived phase. -/
def newVal (kinds : Nat → KindSpec) (cur : Nat → Option Nat) (k : Nat) : Option Nat :=
  match kinds k with
  | KindSpec.primary => cur k
  | KindSpec.sub parent pred dflt =>
      if pred (cur parent) then some ((cur k).getD dflt) else none
  | KindSpec.computed sources f => (seqOpt (sources.map cur)).map f

/-- Modelled from the spec: step 1 of the per-pass algorithm (section 4.2)
for one Primary kind — consume the pending value, set the current value
immediately so downstream dependents observe it within the same sweep, and
record a Transition Record iff the value changed. -/
def stepPrimary (s : Store) (k : Nat) : Store × List TransitionRecord :=
  match s.pending k with
  | none => (s, [])
  | some v =>
      ({ current := fun j => if j = k then some v else s.current j,
         pending := fun j => if j = k then none else s.pending j },
       if s.current k = some v then [] else [⟨k, s.current k, some v⟩])

/-- Modelled from the spec: step 2 of the per-pass algorithm for one
Sub/Computed kind — store the recomputed value and record a Transition
Record iff presence or value changed. -/
def stepDerived (kinds : Nat → KindSpec) (cur : Nat → Option Nat) (k : Nat) :
    (Nat → Option Nat) × List TransitionRecord :=
  (fun j => if j = k then newVal kinds cur k else cur j,
   if newVal kinds cur k = cur k then [] else [⟨k, cur k, newVal kinds cur k⟩])

/-- Modelled from the spec: the Primary phase of one sweep — process every
Primary kind's pending request in request order, concatenating the records
in production order. -/
def primaryPhase : Store → List Nat → Store × List TransitionRecord
  | s, [] => (s, [])
  | s, k :: rest =>
      let p := stepPrimary s k
      let q := primaryPhase p.1 rest
      (q.1, p.2 ++ q.2)

/-- Modelled from the spec: the derived phase of one sweep — visit the
Sub/Computed kinds in the cached topological order, recomputing each against
the already-updated values, concatenating the records in production order. -/
def derivedPhase (kinds : Nat → KindSpec) :
    (Nat → Option Nat) → List Nat → (Nat → Option Nat) × List TransitionRecord
  | cur, [] => (cur, [])
  | cur, k :: rest =>
      let p := stepDerived kinds cur k
      let q := derivedPhase kinds p.1 rest
      (q.1, p.2 ++ q.2)

/-- Modelled from the spec: one Transition Engine pass (section 4.2) —
Primary kinds first in request order, then Sub/Computed kinds in topological
order; returns the post-sweep store and the Transition Records in
production order. -/
def sweep (cfg : Config) (s : Store) : Store × List TransitionRecord :=
  let p := primaryPhase s cfg.primaryOrder
  let q := derivedPhase cfg.kinds p.1.current cfg.topoOrder
  ({ current := q.1, pending := p.1.pending }, p.2 ++ q.2)

/-- Boolean no-duplicates check on a kind list. -/
def nodupB : List Nat → Bool
  | [] => true
  | k :: rest => (!decide (k ∈ rest)) && nodupB rest

/-- A processing order is good for the dependency graph when it has no
duplicates and every kind's dependencies are strictly earlier in the order
(or outside it, as Primary parents are): each kind's dependencies are never
itself or a later entry.  This is exactly what a successful topological sort
of an acyclic graph produces. -/
def goodOrder (kinds : Nat → KindSpec) : List Nat → Bool
  | [] => true
  | k :: rest =>
      (!decide (k ∈ rest)) &&
      (deps kinds k).all (fun j => (!decide (j = k)) && (!decide (j ∈ rest))) &&
      goodOrder kinds rest

/-- Well-formedness of a registered configuration: the cached topological
order is good, the Primary request order has no duplicates, and no
Sub/Computed kind is also processed as a Primary kind. -/
def wf (cfg : Config) : Bool :=
  goodOrder cfg.kinds cfg.topoOrder &&
  nodupB cfg.primaryOrder &&
  cfg.topoOrder.all (fun k => !decide (k ∈ cfg.primaryOrder))

/-- The recomputation rule with the prior-value lookup split from the
dependency lookups: `old` supplies a Sub kind's prior current value, `cur`
supplies the parent/source values.  With `old = cur` this is `newVal`.
Spec section 4.2 step 2 describes exactly this mixed reading: predicates and
derivations see the already-updated values while a Sub kind's "prior current
value" is the value it held before the sweep. -/
def newValMix (kinds : Nat → KindSpec) (old cur : Nat → Option Nat) (k : Nat) :
    Option Nat :=
  match kinds k with
  | KindSpec.primary => old k
  | KindSpec.sub parent pred dflt =>
      if pred (cur parent) then some ((old k).getD dflt) else none
  | KindSpec.computed sources f => (seqOpt (sources.map cur)).map f

/-- Whether a kind declaration is the Primary variant. -/
def isPrimarySpec : KindSpec → Bool
  | KindSpec.primary => true
  | _ => false

/-- The Sub/Computed kind identities of a registration declaration list. -/
def derivedKinds (decl : List (Nat × KindSpec)) : List Nat :=
  (decl.filter (fun p => !isPrimarySpec p.2)).map (fun p => p.1)

/-- The Primary kind identities of a registration declaration list, in
declaration (request) order. -/
def primaryKinds (decl : List (Nat × KindSpec)) : List Nat :=
  (decl.filter (fun p => isPrimarySpec p.2)).map (fun p => p.1)

/-- The kind table described by a declaration list (unknown kinds default
to Primary, which has no dependencies). -/
def mkKinds (decl : List (Nat × KindSpec)) : Nat → KindSpec :=
  fun k =>
    match decl.find? (fun p => p.1 == k) with
    | some p => p.2
    | none => KindSpec.primary

/-- A kind is ready to be scheduled when none of its dependencies is still
unscheduled. -/
def readyB (kinds : Nat → KindSpec) (remaining : List Nat) (k : Nat) : Bool :=
  (deps kinds k).all (fun j => !decide (j ∈ remaining))

/-- Modelled from the spec: the topological sort performed at registration
(sections 3 and 4.2 — "detected via topological sort failure"; the
registration code is not among the analyzed sources).  Kahn-style: pick a
ready kind among those remaining, schedule it, repeat; if no kind is ready
the graph has a cycle and registration fails. -/
def topoLoop (kinds : Nat → KindSpec) : Nat → List Nat → Except String (List Nat)
  | _, [] => Except.ok []
  | 0, _ :: _ => Except.error "state dependency graph contains a cycle"
  | fuel + 1, k0 :: rest =>
      match (k0 :: rest).find? (readyB kinds (k0 :: rest)) with
      | none => Except.error "state dependency graph contains a cycle"
      | some k => (topoLoop kinds fuel ((k0 :: rest).erase k)).map (fun ord => k :: ord)

/-- Modelled from the spec: registration of a state-kind declaration list
(sections 6 and 7) — duplicate kind registration and dependency cycles are
configuration errors detected here, fatal to startup; on success the
topological order of Sub/Computed kinds is computed once and cached in the
configuration handed to the runtime.  A transition pass only ever runs with
a configuration produced by successful registration. -/
def register (decl : List (Nat × KindSpec)) : Except String Config :=
  if nodupB (decl.map (fun p => p.1)) then
    match topoLoop (mkKinds decl) (derivedKinds decl).length (derivedKinds decl) with
    | Except.ok ord =>
        Except.ok { kinds := mkKinds decl, primaryOrder := primaryKinds decl,
                    topoOrder := ord }
    | Except.error e => Except.error e
  else Except.error "duplicate state kind registration"

/-- One link of a dependency chain: each element's successor in the list is
among its dependencies. -/
def chainB (kinds : Nat → KindSpec) : Nat → List Nat → Bool
  | _, [] => true
  | a, b :: rest => decide (b ∈ deps kinds a) && chainB kinds b rest

/-- A (nonempty) dependency cycle: consecutive elements are linked by
dependency edges and the first element is a dependency of the last. -/
def isCycleB (kinds : Nat → KindSpec) (c : List Nat) : Bool :=
  match c with
  | [] => false
  | k0 :: rest => chainB kinds k0 rest && decide (k0 ∈ deps kinds (rest.getLastD k0))

/-- Modelled from the spec: the `in_state` / `equals(kind, value)` run
condition (sections 4.3 and 6; the `condition` module named in the crate
root is not among the analyzed sources): a pure predicate on the
current-pass state values, true exactly when the kind currently holds the
given value. -/
def in_state (cur : Nat → Option Nat) (k v : Nat) : Bool :=
  cur k == some v

/-- Modelled from the spec: the `state_changed` / `changed(kind)` run
condition — true iff a Transition Record exists for that kind this pass. -/
def state_changed (recs : List TransitionRecord) (k : Nat) : Bool :=
  recs.any (fun r => r.kind == k)

/-- Modelled from the spec: Scoped Tag polarity (section 3) — despawn on
enter of the value, or despawn on exit of the value (the state_scoped
module's DespawnOnEnterState / DespawnOnExitState components). -/
inductive Polarity where
  | onEnter : Polarity
  | onExit : Polarity
deriving DecidableEq, Repr

/-- Modelled from the spec: a Scoped Tag
(state kind identity, required value, polarity). -/
structure ScopedTag where
  kind : Nat
  value : Nat
  polarity : Polarity
deriving DecidableEq, Repr

/-- Modelled from the spec: whether one Transition Record invalidates a
Scoped Tag's window (section 4.4) — exit polarity fires when the record
shows old == value and new ≠ value, enter polarity when new == value and
old ≠ value. -/
def triggers (tag : ScopedTag) (r : TransitionRecord) : Bool :=
  r.kind == tag.kind &&
    (match tag.polarity with
     | Polarity.onExit => r.old == some tag.value && !(r.new == some tag.value)
     | Polarity.onEnter => r.new == some tag.value && !(r.old == some tag.value))

/-- Modelled from the spec: State-Scoped Cleanup marks a tagged entity for
destruction in a pass iff some Transition Record of that pass triggers its
tag (section 4.4). -/
def tagTriggered (tag : ScopedTag) (recs : List TransitionRecord) : Bool :=
  recs.any (triggers tag)

/-- A three-vector (bevy_math Vec3); the f32 components are modelled as
rationals — only construction and copying of components occur in the fog
preparation code. -/
structure Vec3 where
  x : Rat
  y : Rat
  z : Rat
deriving DecidableEq, Repr

/-- A four-vector (bevy_math Vec4). -/
structure Vec4 where
  x : Rat
  y : Rat
  z : Rat
  w : Rat
deriving DecidableEq, Repr

def vec3Zero : Vec3 := ⟨0, 0, 0⟩

def vec4Zero : Vec4 := ⟨0, 0, 0, 0⟩

/-- A color in linear RGBA space (bevy_color LinearRgba).  The conversion
`LinearRgba::from(color)` lives in the external bevy_color crate, so fog
colours are modelled directly by their linear-RGBA representation. -/
structure LinearRgba where
  red : Rat
  green : Rat
  blue : Rat
  alpha : Rat
deriving DecidableEq, Repr

/-- LinearRgba::to_vec4 — the four components as a Vec4. -/
def LinearRgba.to_vec4 (c : LinearRgba) : Vec4 := ⟨c.red, c.green, c.blue, c.alpha⟩

/-- FogFalloff (crates/bevy_pbr): Linear carries start and end distances,
Exponential and ExponentialSquared carry a density, Atmospheric carries
extinction and inscattering vectors. -/
inductive FogFalloff where
  | Linear : Rat → Rat → FogFalloff
  | Exponential : Rat → FogFalloff
  | ExponentialSquared : Rat → FogFalloff
  | Atmospheric : Vec3 → Vec3 → FogFalloff
deriving DecidableEq, Repr

/-- DistanceFog component (crates/bevy_pbr): the fields read by
prepare_fog. -/
structure DistanceFog where
  color : LinearRgba
  directional_light_color : LinearRgba
  directional_light_exponent : Rat
  falloff : FogFalloff
deriving DecidableEq, Repr

/-- GpuFog from src/crates/bevy_pbr/src/render/fog.rs, field for field
(mode is a u32; its value range here stays within 0..=4). -/
structure GpuFog where
  base_color : Vec4
  directional_light_color : Vec4
  be : Vec3
  directional_light_exponent : Rat
  bi : Vec3
  mode : Nat
deriving DecidableEq, Repr

/-- The derived `Default` of GpuFog in fog.rs: every field zero. -/
def gpuFogDefault : GpuFog :=
  { base_color := vec4Zero, directional_light_color := vec4Zero, be := vec3Zero,
    directional_light_exponent := 0, bi := vec3Zero, mode := 0 }

def GPU_FOG_MODE_OFF : Nat := 0

def GPU_FOG_MODE_LINEAR : Nat := 1

def GPU_FOG_MODE_EXPONENTIAL : Nat := 2

def GPU_FOG_MODE_EXPONENTIAL_SQUARED : Nat := 3

def GPU_FOG_MODE_ATMOSPHERIC : Nat := 4

/-- The loop body of prepare_fog (src/crates/bevy_pbr/src/render/fog.rs,
lines 64-113): the GpuFog uniform written for one view, from its optional
DistanceFog component.  `..Default::default()` leaves the unnamed fields at
their zero defaults. -/
def gpuFogFor : Option DistanceFog → GpuFog
  | some fog =>
      match fog.falloff with
      | FogFalloff.Linear start end_ =>
          { gpuFogDefault with
            mode := GPU_FOG_MODE_LINEAR,
            base_color := fog.color.to_vec4,
            directional_light_color := fog.directional_light_color.to_vec4,
            directional_light_exponent := fog.directional_light_exponent,
            be := ⟨start, end_, 0⟩ }
      | FogFalloff.Exponential density =>
          { gpuFogDefault with
            mode := GPU_FOG_MODE_EXPONENTIAL,
            base_color := fog.color.to_vec4,
            directional_light_color := fog.directional_light_color.to_vec4,
            directional_light_exponent := fog.directional_light_exponent,
            be := ⟨density, 0, 0⟩ }
      | FogFalloff.ExponentialSquared density =>
          { gpuFogDefault with
            mode := GPU_FOG_MODE_EXPONENTIAL_SQUARED,
            base_color := fog.color.to_vec4,
            directional_light_color := fog.directional_light_color.to_vec4,
            directional_light_exponent := fog.directional_light_exponent,
            be := ⟨density, 0, 0⟩ }
      | FogFalloff.Atmospheric extinction inscattering =>
          { mode := GPU_FOG_MODE_ATMOSPHERIC,
            base_color := fog.color.to_vec4,
            directional_light_color := fog.directional_light_color.to_vec4,
            directional_light_exponent := fog.directional_light_exponent,
            be := extinction,
            bi := inscattering }
  | none => { gpuFogDefault with mode := GPU_FOG_MODE_OFF }

/-- The view loop of prepare_fog: each view gets one uniform written through
the dynamic-uniform-buffer writer (append, returning the write position) and
a (entity, offset) component insertion.  `off` is the writer's position. -/
def prepareViews : Nat → List (Nat × Option DistanceFog) → List GpuFog × List (Nat × Nat)
  | _, [] => ([], [])
  | off, (entity, fog) :: rest =>
      let g := gpuFogFor fog
      let q := prepareViews (off + 1) rest
      (g :: q.1, (entity, off) :: q.2)

/-- prepare_fog (src/crates/bevy_pbr/src/render/fog.rs, lines 49-120):
writes one GpuFog uniform per view entity with an ExtractedView, starting
from a fresh writer over the pass's uniform buffer, and returns the buffer
contents plus the ViewFogUniformOffset insertions (entity, offset). -/
def prepare_fog (views : List (Nat × Option DistanceFog)) :
    List GpuFog × List (Nat × Nat) :=
  prepareViews 0 views

/-- A demonstration configuration: kind 0 is Primary; kind 1 is a Sub kind
of 0, active while 0 holds value 1, with default-on-activation value 5;
kind 2 is Computed from kind 1, multiplying its value by 10. -/
def chainCfg : Config :=
  { kinds := fun k =>
      if k = 1 then KindSpec.sub 0 (fun v => v == some 1) 5
      else if k = 2 then KindSpec.computed [1] (fun vs => 10 * vs.headD 0)
      else KindSpec.primary,
    primaryOrder := [0],
    topoOrder := [1, 2] }

/-- A store where kind 0 currently holds 0 with a pending request for 1,
and kinds 1 and 2 are absent. -/
def chainStore : Store :=
  { current := fun k => if k = 0 then some 0 else none,
    pending := fun k => if k = 0 then some 1 else none }

/-- A registration declaration containing a dependency cycle: Computed kind
1 sources kind 2 and Computed kind 2 sources kind 1. -/
def cycDecl : List (Nat × KindSpec) :=
  [(1, KindSpec.computed [2] (fun vs => vs.headD 0)),
   (2, KindSpec.computed [1] (fun vs => vs.headD 0))]

/-- The uniform contents asserted by the claim for a fogged view: mode 1
for Linear, 2 for Exponential, 3 for ExponentialSquared, 4 for Atmospheric;
be packed as (start, end, 0) for Linear, (density, 0, 0) for the two
exponential modes with bi left at zero, and be = extinction with
bi = inscattering for Atmospheric; base_color, directional_light_color and
directional_light_exponent copied from the fog component in every
variant. -/
def gpuFogSpec (fog : DistanceFog) : GpuFog :=
  { base_color := fog.color.to_vec4,
    directional_light_color := fog.directional_light_color.to_vec4,
    directional_light_exponent := fog.directional_light_exponent,
    be :=
      match fog.falloff with
      | FogFalloff.Linear start end_ => ⟨start, end_, 0⟩
      | FogFalloff.Exponential density => ⟨density, 0, 0⟩
      | FogFalloff.ExponentialSquared density => ⟨density, 0, 0⟩
      | FogFalloff.Atmospheric extinction _ => extinction,
    bi :=
      match fog.falloff with
      | FogFalloff.Atmospheric _ inscattering => inscattering
      | _ => vec3Zero,
    mode :=
      match fog.falloff with
      | FogFalloff.Linear _ _ => 1
      | FogFalloff.Exponential _ => 2
      | FogFalloff.ExponentialSquared _ => 3
      | FogFalloff.Atmospheric _ _ => 4 }

theorem stepPrimary_current_ne (s : Store) (k j : Nat) (h : j ≠ k) :
    (stepPrimary s k).1.current j = s.current j := by
  unfold stepPrimary
  cases s.pending k with
  | none => rfl
  | some v => simp [h]

theorem stepPrimary_pending_ne (s : Store) (k j : Nat) (h : j ≠ k) :
    (stepPrimary s k).1.pending j = s.pending j := by
  unfold stepPrimary
  cases s.pending k with
  | none => rfl
  | some v => simp [h]

theorem stepPrimary_pending_self (s : Store) (k : Nat) :
    (stepPrimary s k).1.pending k = none := by
  unfold stepPrimary
  cases h : s.pending k with
  | none => exact h
  | some v => simp

theorem stepPrimary_current_self (s : Store) (k : Nat) :
    (stepPrimary s k).1.current k =
      match s.pending k with
      | none => s.current k
      | some v => some v := by
  unfold stepPrimary
  cases s.pending k with
  | none => rfl
  | some v => simp

theorem stepPrimary_records (s : Store) (k : Nat) :
    (stepPrimary s k).2 =
      match s.pending k with
      | none => []
      | some v => if s.current k = some v then [] else [⟨k, s.current k, some v⟩] := by
  unfold stepPrimary
  cases s.pending k with
  | none => rfl
  | some v => rfl

theorem stepPrimary_record_kind (s : Store) (k : Nat) :
    ∀ r ∈ (stepPrimary s k).2, r.kind = k := by
  intro r hr
  rw [stepPrimary_records] at hr
  cases hp : s.pending k with
  | none => rw [hp] at hr; simp at hr
  | some v =>
      rw [hp] at hr
      by_cases h : s.current k = some v
      · simp [h] at hr
      · simp [h] at hr
        rw [hr]

theorem primaryPhase_current_notmem (order : List Nat) :
    ∀ (s : Store) (k : Nat), k ∉ order →
      (primaryPhase s order).1.current k = s.current k := by
  induction order with
  | nil => intro s k _; rfl
  | cons j rest ih =>
      intro s k hk
      have hkj : k ≠ j := fun h => hk (h ▸ List.mem_cons_self j rest)
      have hkr : k ∉ rest := fun h => hk (List.mem_cons_of_mem j h)
      show (primaryPhase (stepPrimary s j).1 rest).1.current k = s.current k
      rw [ih (stepPrimary s j).1 k hkr, stepPrimary_current_ne s j k hkj]

theorem primaryPhase_pending_notmem (order : List Nat) :
    ∀ (s : Store) (k : Nat), k ∉ order →
      (primaryPhase s order).1.pending k = s.pending k := by
  induction order with
  | nil => intro s k _; rfl
  | cons j rest ih =>
      intro s k hk
      have hkj : k ≠ j := fun h => hk (h ▸ List.mem_cons_self j rest)
      have hkr : k ∉ rest := fun h => hk (List.mem_cons_of_mem j h)
      show (primaryPhase (stepPrimary s j).1 rest).1.pending k = s.pending k
      rw [ih (stepPrimary s j).1 k hkr, stepPrimary_pending_ne s j k hkj]

theorem primaryPhase_record_kinds (order : List Nat) :
    ∀ (s : Store), ∀ r ∈ (primaryPhase s order).2, r.kind ∈ order := by
  induction order with
  | nil => intro s r hr; simp [primaryPhase] at hr
  | cons j rest ih =>
      intro s r hr
      show r.kind ∈ j :: rest
      have hr' : r ∈ (stepPrimary s j).2 ++ (primaryPhase (stepPrimary s j).1 rest).2 := hr
      rcases List.mem_append.mp hr' with h1 | h2
      · exact (stepPrimary_record_kind s j r h1) ▸ List.mem_cons_self j rest
      · exact List.mem_cons_of_mem j (ih (stepPrimary s j).1 r h2)

theorem primaryPhase_pending_mem (order : List Nat) :
    ∀ (s : Store) (k : Nat), k ∈ order →
      (primaryPhase s order).1.pending k = none := by
  induction order with
  | nil => intro s k hk; simp at hk
  | cons j rest ih =>
      intro s k hk
      show (primaryPhase (stepPrimary s j).1 rest).1.pending k = none
      by_cases hkr : k ∈ rest
      · exact ih (stepPrimary s j).1 k hkr
      · have hkj : k = j := by
          rcases List.mem_cons.mp hk with h | h
          · exact h
          · exact absurd h hkr
        rw [primaryPhase_pending_notmem rest (stepPrimary s j).1 k hkr, hkj,
          stepPrimary_pending_self]

theorem nodupB_cons (k : Nat) (rest : List Nat) (h : nodupB (k :: rest) = true) :
    k ∉ rest ∧ nodupB rest = true := by
  have h' := h
  unfold nodupB at h'
  simp only [Bool.and_eq_true] at h'
  rcases h' with ⟨h1, h2⟩
  refine ⟨?_, h2⟩
  intro hm
  simp [hm] at h1

theorem filter_kind_singleton (k : Nat) (r : TransitionRecord) (h : r.kind = k) :
    List.filter (fun x => x.kind == k) [r] = [r] := by
  simp [List.filter, h]

theorem filter_kind_none (k : Nat) (recs : List TransitionRecord)
    (h : ∀ r ∈ recs, r.kind ≠ k) :
    List.filter (fun x => x.kind == k) recs = [] := by
  rw [List.filter_eq_nil_iff]
  intro r hr
  simp [h r hr]

theorem primaryPhase_at (K : Nat) (order : List Nat) :
    ∀ (s : Store), nodupB order = true → K ∈ order →
      (primaryPhase s order).1.current K =
        (match s.pending K with
         | none => s.current K
         | some v => some v) ∧
      List.filter (fun r => r.kind == K) (primaryPhase s order).2 =
        (match s.pending K with
         | none => []
         | some v =>
             if s.current K = some v then [] else [⟨K, s.current K, some v⟩]) := by
  induction order with
  | nil => intro s _ hK; simp at hK
  | cons j rest ih =>
      intro s hnd hK
      rcases nodupB_cons j rest hnd with ⟨hjr, hndr⟩
      have hsplit :
          (primaryPhase s (j :: rest)).1 = (primaryPhase (stepPrimary s j).1 rest).1 ∧
          (primaryPhase s (j :: rest)).2 =
            (stepPrimary s j).2 ++ (primaryPhase (stepPrimary s j).1 rest).2 :=
        ⟨rfl, rfl⟩
      by_cases hKj : K = j
      · subst hKj
        have hKrest : K ∉ rest := hjr
        constructor
        · rw [hsplit.1, primaryPhase_current_notmem rest (stepPrimary s K).1 K hKrest,
            stepPrimary_current_self]
        · rw [hsplit.2, List.filter_append]
          have hrest : List.filter (fun r => r.kind == K)
              (primaryPhase (stepPrimary s K).1 rest).2 = [] := by
            apply filter_kind_none
            intro r hr hkind
            exact hKrest (hkind ▸ primaryPhase_record_kinds rest (stepPrimary s K).1 r hr)
          rw [hrest, List.append_nil, stepPrimary_records]
          cases hp : s.pending K with
          | none => simp
          | some v =>
              by_cases hc : s.current K = some v
              · simp [hc]
              · simp only [if_neg hc]
                exact filter_kind_singleton K _ rfl
      · have hKrest : K ∈ rest := by
          rcases List.mem_cons.mp hK with h | h
          · exact absurd h hKj
          · exact h
        have hit := ih (stepPrimary s j).1 hndr hKrest
        have hc : (stepPrimary s j).1.current K = s.current K :=
          stepPrimary_current_ne s j K hKj
        have hpnd : (stepPrimary s j).1.pending K = s.pending K :=
          stepPrimary_pending_ne s j K hKj
        rw [hc, hpnd] at hit
        constructor
        · rw [hsplit.1]; exact hit.1
        · rw [hsplit.2, List.filter_append]
          have hstep : List.filter (fun r => r.kind == K) (stepPrimary s j).2 = [] := by
            apply filter_kind_none
            intro r hr hkind
            exact hKj (hkind.symm.trans (stepPrimary_record_kind s j r hr))
          rw [hstep, List.nil_append]
          exact hit.2

theorem primaryPhase_all_clear (order : List Nat) :
    ∀ (s : Store), (∀ k ∈ order, s.pending k = none) →
      primaryPhase s order = (s, []) := by
  induction order with
  | nil => intro s _; rfl
  | cons j rest ih =>
      intro s h
      have hj : s.pending j = none := h j (List.mem_cons_self j rest)
      have hstep : stepPrimary s j = (s, []) := by
        unfold stepPrimary
        rw [hj]
      show ((primaryPhase (stepPrimary s j).1 rest).1,
        (stepPrimary s j).2 ++ (primaryPhase (stepPrimary s j).1 rest).2) = (s, [])
      rw [hstep]
      have := ih s (fun k hk => h k (List.mem_cons_of_mem j hk))
      rw [this]
      rfl

theorem newValMix_self (kinds : Nat → KindSpec) (cur : Nat → Option Nat) (k : Nat) :
    newValMix kinds cur cur k = newVal kinds cur k := by
  unfold newValMix newVal
  rfl

theorem newValMix_congr (kinds : Nat → KindSpec) (old1 old2 cur1 cur2 : Nat → Option Nat)
    (k : Nat) (hold : old1 k = old2 k)
    (hcur : ∀ j ∈ deps kinds k, cur1 j = cur2 j) :
    newValMix kinds old1 cur1 k = newValMix kinds old2 cur2 k := by
  cases hk : kinds k with
  | primary => simp only [newValMix, hk]; exact hold
  | sub parent pred dflt =>
      simp only [deps, hk] at hcur
      simp only [newValMix, hk]
      rw [hcur parent (List.mem_singleton.mpr rfl), hold]
  | computed sources f =>
      simp only [deps, hk] at hcur
      simp only [newValMix, hk]
      have : sources.map cur1 = sources.map cur2 := List.map_congr_left hcur
      rw [this]

theorem newValMix_fixed (kinds : Nat → KindSpec) (old cur : Nat → Option Nat) (k : Nat)
    (h : cur k = newValMix kinds old cur k) : newVal kinds cur k = cur k := by
  cases hk : kinds k with
  | primary => simp [newVal, hk]
  | sub parent pred dflt =>
      simp only [newValMix, hk] at h
      simp only [newVal, hk]
      by_cases hp : pred (cur parent)
      · rw [if_pos hp] at h
        rw [if_pos hp, h]
        simp
      · rw [if_neg hp] at h
        rw [if_neg hp, h]
  | computed sources f =>
      simp only [newValMix, hk] at h
      simp only [newVal, hk]
      exact h.symm

theorem derivedPhase_current_notmem (kinds : Nat → KindSpec) (order : List Nat) :
    ∀ (cur : Nat → Option Nat) (k : Nat), k ∉ order →
      (derivedPhase kinds cur order).1 k = cur k := by
  induction order with
  | nil => intro cur k _; rfl
  | cons j rest ih =>
      intro cur k hk
      have hkj : k ≠ j := fun h => hk (h ▸ List.mem_cons_self j rest)
      have hkr : k ∉ rest := fun h => hk (List.mem_cons_of_mem j h)
      show (derivedPhase kinds (stepDerived kinds cur j).1 rest).1 k = cur k
      rw [ih (stepDerived kinds cur j).1 k hkr]
      show (if k = j then newVal kinds cur j else cur k) = cur k
      rw [if_neg hkj]

theorem stepDerived_record_kind (kinds : Nat → KindSpec) (cur : Nat → Option Nat)
    (k : Nat) : ∀ r ∈ (stepDerived kinds cur k).2, r.kind = k := by
  intro r hr
  have hr' : r ∈ (if newVal kinds cur k = cur k then []
    else [⟨k, cur k, newVal kinds cur k⟩]) := hr
  by_cases h : newVal kinds cur k = cur k
  · rw [if_pos h] at hr'; simp at hr'
  · rw [if_neg h] at hr'
    simp at hr'
    rw [hr']

theorem derivedPhase_record_kinds (kinds : Nat → KindSpec) (order : List Nat) :
    ∀ (cur : Nat → Option Nat), ∀ r ∈ (derivedPhase kinds cur order).2,
      r.kind ∈ order := by
  induction order with
  | nil => intro cur r hr; simp [derivedPhase] at hr
  | cons j rest ih =>
      intro cur r hr
      have hr' : r ∈ (stepDerived kinds cur j).2 ++
          (derivedPhase kinds (stepDerived kinds cur j).1 rest).2 := hr
      rcases List.mem_append.mp hr' with h1 | h2
      · exact (stepDerived_record_kind kinds cur j r h1) ▸ List.mem_cons_self j rest
      · exact List.mem_cons_of_mem j (ih (stepDerived kinds cur j).1 r h2)

theorem goodOrder_cons (kinds : Nat → KindSpec) (k : Nat) (rest : List Nat)
    (h : goodOrder kinds (k :: rest) = true) :
    k ∉ rest ∧ (∀ j ∈ deps kinds k, j ≠ k ∧ j ∉ rest) ∧
      goodOrder kinds rest = true := by
  have h' := h
  unfold goodOrder at h'
  simp only [Bool.and_eq_true] at h'
  rcases h' with ⟨⟨h1, h2⟩, h3⟩
  refine ⟨?_, ?_, h3⟩
  · intro hm; simp [hm] at h1
  · intro j hj
    have := List.all_eq_true.mp h2 j hj
    simp only [Bool.and_eq_true] at this
    rcases this with ⟨ha, hb⟩
    constructor
    · intro he; simp [he] at ha
    · intro hm; simp [hm] at hb

theorem goodOrder_nodupB (kinds : Nat → KindSpec) (order : List Nat) :
    goodOrder kinds order = true → nodupB order = true := by
  induction order with
  | nil => intro _; rfl
  | cons j rest ih =>
      intro h
      rcases goodOrder_cons kinds j rest h with ⟨h1, _, h3⟩
      unfold nodupB
      simp [h1, ih h3]

theorem derivedPhase_spec (kinds : Nat → KindSpec) (order : List Nat) :
    ∀ (cur : Nat → Option Nat), goodOrder kinds order = true →
      ∀ k ∈ order,
        (derivedPhase kinds cur order).1 k =
          newValMix kinds cur ((derivedPhase kinds cur order).1) k := by
  induction order with
  | nil => intro cur _ k hk; simp at hk
  | cons j rest ih =>
      intro cur hg k hk
      rcases goodOrder_cons kinds j rest hg with ⟨hjr, hdeps, hgr⟩
      have hstep_self : (stepDerived kinds cur j).1 j = newVal kinds cur j := by
        show (if j = j then newVal kinds cur j else cur j) = newVal kinds cur j
        rw [if_pos rfl]
      have hstep_ne : ∀ i, i ≠ j → (stepDerived kinds cur j).1 i = cur i := by
        intro i hij
        show (if i = j then newVal kinds cur j else cur i) = cur i
        rw [if_neg hij]
      have hres : (derivedPhase kinds cur (j :: rest)).1 =
          (derivedPhase kinds (stepDerived kinds cur j).1 rest).1 := rfl
      rcases List.mem_cons.mp hk with hkj | hkr
      · subst hkj
        have hpostk : (derivedPhase kinds cur (k :: rest)).1 k = newVal kinds cur k := by
          rw [hres, derivedPhase_current_notmem kinds rest (stepDerived kinds cur k).1 k hjr,
            hstep_self]
        rw [hpostk, ← newValMix_self kinds cur k]
        apply newValMix_congr kinds cur cur cur _ k rfl
        intro i hi
        rcases hdeps i hi with ⟨hik, hir⟩
        rw [hres, derivedPhase_current_notmem kinds rest (stepDerived kinds cur k).1 i hir,
          hstep_ne i hik]
      · have hkj : k ≠ j := fun h => hjr (h ▸ hkr)
        have hit := ih (stepDerived kinds cur j).1 hgr k hkr
        rw [hres]
        rw [hit]
        exact newValMix_congr kinds (stepDerived kinds cur j).1 cur _ _ k
          (hstep_ne k hkj) (fun i _ => rfl)

theorem derivedPhase_at (kinds : Nat → KindSpec) (K : Nat) (order : List Nat) :
    ∀ (cur : Nat → Option Nat), nodupB order = true → K ∈ order →
      List.filter (fun r => r.kind == K) (derivedPhase kinds cur order).2 =
        (if (derivedPhase kinds cur order).1 K = cur K then []
         else [⟨K, cur K, (derivedPhase kinds cur order).1 K⟩]) := by
  induction order with
  | nil => intro cur _ hK; simp at hK
  | cons j rest ih =>
      intro cur hnd hK
      rcases nodupB_cons j rest hnd with ⟨hjr, hndr⟩
      have hres : (derivedPhase kinds cur (j :: rest)).1 =
          (derivedPhase kinds (stepDerived kinds cur j).1 rest).1 := rfl
      have hrecs : (derivedPhase kinds cur (j :: rest)).2 =
          (stepDerived kinds cur j).2 ++
            (derivedPhase kinds (stepDerived kinds cur j).1 rest).2 := rfl
      by_cases hKj : K = j
      · subst hKj
        have hKrest : K ∉ rest := hjr
        have hrestnil : List.filter (fun r => r.kind == K)
            (derivedPhase kinds (stepDerived kinds cur K).1 rest).2 = [] := by
          apply filter_kind_none
          intro r hr hkind
          exact hKrest (hkind ▸
            derivedPhase_record_kinds kinds rest (stepDerived kinds cur K).1 r hr)
        have hpostK : (derivedPhase kinds cur (K :: rest)).1 K = newVal kinds cur K := by
          rw [hres, derivedPhase_current_notmem kinds rest (stepDerived kinds cur K).1 K hKrest]
          show (if K = K then newVal kinds cur K else cur K) = newVal kinds cur K
          rw [if_pos rfl]
        rw [hrecs, List.filter_append, hrestnil, List.append_nil, hpostK]
        show List.filter (fun r : TransitionRecord => r.kind == K)
            (if newVal kinds cur K = cur K then ([] : List TransitionRecord)
             else [⟨K, cur K, newVal kinds cur K⟩]) = _
        by_cases hc : newVal kinds cur K = cur K
        · rw [if_pos hc]; rfl
        · rw [if_neg hc]
          exact filter_kind_singleton K _ rfl
      · have hKrest : K ∈ rest := by
          rcases List.mem_cons.mp hK with h | h
          · exact absurd h hKj
          · exact h
        have hcur1K : (stepDerived kinds cur j).1 K = cur K := by
          show (if K = j then newVal kinds cur j else cur K) = cur K
          rw [if_neg hKj]
        have hstepnil : List.filter (fun r => r.kind == K) (stepDerived kinds cur j).2 = [] := by
          apply filter_kind_none
          intro r hr hkind
          exact hKj (hkind.symm.trans (stepDerived_record_kind kinds cur j r hr))
        have hit := ih (stepDerived kinds cur j).1 hndr hKrest
        rw [hrecs, List.filter_append, hstepnil, List.nil_append, hres, hit, hcur1K]

theorem derivedPhase_idem (kinds : Nat → KindSpec) (order : List Nat) :
    ∀ (cur : Nat → Option Nat), (∀ k ∈ order, newVal kinds cur k = cur k) →
      derivedPhase kinds cur order = (cur, []) := by
  induction order with
  | nil => intro cur _; rfl
  | cons j rest ih =>
      intro cur h
      have hj : newVal kinds cur j = cur j := h j (List.mem_cons_self j rest)
      have hstep1 : (stepDerived kinds cur j).1 = cur := by
        funext i
        show (if i = j then newVal kinds cur j else cur i) = cur i
        by_cases hij : i = j
        · rw [if_pos hij, hj, hij]
        · rw [if_neg hij]
      have hstep2 : (stepDerived kinds cur j).2 = [] := by
        show (if newVal kinds cur j = cur j then ([] : List TransitionRecord)
          else [⟨j, cur j, newVal kinds cur j⟩]) = []
        rw [if_pos hj]
      show ((derivedPhase kinds (stepDerived kinds cur j).1 rest).1,
        (stepDerived kinds cur j).2 ++
          (derivedPhase kinds (stepDerived kinds cur j).1 rest).2) = (cur, [])
      rw [hstep1, hstep2, ih cur (fun k hk => h k (List.mem_cons_of_mem j hk))]
      rfl

theorem wf_parts (cfg : Config) (h : wf cfg = true) :
    goodOrder cfg.kinds cfg.topoOrder = true ∧
    nodupB cfg.primaryOrder = true ∧
    ∀ k ∈ cfg.topoOrder, k ∉ cfg.primaryOrder := by
  unfold wf at h
  simp only [Bool.and_eq_true] at h
  rcases h with ⟨⟨h1, h2⟩, h3⟩
  refine ⟨h1, h2, ?_⟩
  intro k hk hmem
  have := List.all_eq_true.mp h3 k hk
  simp [hmem] at this

theorem sweep_current_eq (cfg : Config) (s : Store) :
    (sweep cfg s).1.current =
      (derivedPhase cfg.kinds (primaryPhase s cfg.primaryOrder).1.current
        cfg.topoOrder).1 := rfl

theorem sweep_pending_eq (cfg : Config) (s : Store) :
    (sweep cfg s).1.pending = (primaryPhase s cfg.primaryOrder).1.pending := rfl

theorem sweep_records_eq (cfg : Config) (s : Store) :
    (sweep cfg s).2 =
      (primaryPhase s cfg.primaryOrder).2 ++
        (derivedPhase cfg.kinds (primaryPhase s cfg.primaryOrder).1.current
          cfg.topoOrder).2 := rfl

theorem sweep_record_once (cfg : Config) (s : Store) (K : Nat) (h : wf cfg = true) :
    List.filter (fun r => r.kind == K) (sweep cfg s).2 =
      (if (sweep cfg s).1.current K = s.current K then []
       else [⟨K, s.current K, (sweep cfg s).1.current K⟩]) := by
  rcases wf_parts cfg h with ⟨hg, hnp, hdisj⟩
  by_cases hK1 : K ∈ cfg.primaryOrder
  · have hKt : K ∉ cfg.topoOrder := fun hmem => hdisj K hmem hK1
    have hdpnil : List.filter (fun r => r.kind == K)
        (derivedPhase cfg.kinds (primaryPhase s cfg.primaryOrder).1.current
          cfg.topoOrder).2 = [] := by
      apply filter_kind_none
      intro r hr hkind
      exact hKt (hkind ▸ derivedPhase_record_kinds cfg.kinds cfg.topoOrder _ r hr)
    have hdpcur : (sweep cfg s).1.current K =
        (primaryPhase s cfg.primaryOrder).1.current K := by
      rw [sweep_current_eq]
      exact derivedPhase_current_notmem cfg.kinds cfg.topoOrder _ K hKt
    rcases primaryPhase_at K cfg.primaryOrder s hnp hK1 with ⟨hcurK, hfiltK⟩
    rw [sweep_records_eq, List.filter_append, hdpnil, List.append_nil, hfiltK]
    rw [hcurK] at hdpcur
    cases hp : s.pending K with
    | none =>
        rw [hp] at hdpcur
        have hdpcur' : (sweep cfg s).1.current K = s.current K := hdpcur
        show ([] : List TransitionRecord) = _
        rw [if_pos hdpcur']
    | some v =>
        rw [hp] at hdpcur
        have hdpcur' : (sweep cfg s).1.current K = some v := hdpcur
        show (if s.current K = some v then ([] : List TransitionRecord)
          else [⟨K, s.current K, some v⟩]) = _
        by_cases hc : s.current K = some v
        · rw [if_pos hc, if_pos (hdpcur'.trans hc.symm)]
        · rw [if_neg hc, if_neg (fun he => hc (hdpcur' ▸ he).symm), hdpcur']
  · by_cases hK2 : K ∈ cfg.topoOrder
    · have hppnil : List.filter (fun r => r.kind == K)
          (primaryPhase s cfg.primaryOrder).2 = [] := by
        apply filter_kind_none
        intro r hr hkind
        exact hK1 (hkind ▸ primaryPhase_record_kinds cfg.primaryOrder s r hr)
      have hppcur : (primaryPhase s cfg.primaryOrder).1.current K = s.current K :=
        primaryPhase_current_notmem cfg.primaryOrder s K hK1
      have hit := derivedPhase_at cfg.kinds K cfg.topoOrder
        (primaryPhase s cfg.primaryOrder).1.current
        (goodOrder_nodupB cfg.kinds cfg.topoOrder hg) hK2
      rw [hppcur] at hit
      rw [sweep_records_eq, List.filter_append, hppnil, List.nil_append, hit,
        sweep_current_eq]
    · have hppnil : List.filter (fun r => r.kind == K)
          (primaryPhase s cfg.primaryOrder).2 = [] := by
        apply filter_kind_none
        intro r hr hkind
        exact hK1 (hkind ▸ primaryPhase_record_kinds cfg.primaryOrder s r hr)
      have hdpnil : List.filter (fun r => r.kind == K)
          (derivedPhase cfg.kinds (primaryPhase s cfg.primaryOrder).1.current
            cfg.topoOrder).2 = [] := by
        apply filter_kind_none
        intro r hr hkind
        exact hK2 (hkind ▸ derivedPhase_record_kinds cfg.kinds cfg.topoOrder _ r hr)
      have hpost : (sweep cfg s).1.current K = s.current K := by
        rw [sweep_current_eq,
          derivedPhase_current_notmem cfg.kinds cfg.topoOrder _ K hK2]
        exact primaryPhase_current_notmem cfg.primaryOrder s K hK1
      rw [sweep_records_eq, List.filter_append, hppnil, hdpnil, if_pos hpost]
      rfl

theorem sweep_newVal_fixed (cfg : Config) (s : Store)
    (hg : goodOrder cfg.kinds cfg.topoOrder = true) :
    ∀ k ∈ cfg.topoOrder,
      newVal cfg.kinds (sweep cfg s).1.current k = (sweep cfg s).1.current k := by
  intro k hk
  have hspec := derivedPhase_spec cfg.kinds cfg.topoOrder
    (primaryPhase s cfg.primaryOrder).1.current hg k hk
  exact newValMix_fixed cfg.kinds (primaryPhase s cfg.primaryOrder).1.current
    (sweep cfg s).1.current k hspec

theorem sweep_pending_clear (cfg : Config) (s : Store) :
    ∀ k ∈ cfg.primaryOrder, (sweep cfg s).1.pending k = none := by
  intro k hk
  rw [sweep_pending_eq]
  exact primaryPhase_pending_mem cfg.primaryOrder s k hk

theorem sweep_idem_aux (cfg : Config) (s : Store)
    (hg : goodOrder cfg.kinds cfg.topoOrder = true) :
    sweep cfg ((sweep cfg s).1) = ((sweep cfg s).1, []) := by
  have hpp : primaryPhase (sweep cfg s).1 cfg.primaryOrder = ((sweep cfg s).1, []) :=
    primaryPhase_all_clear cfg.primaryOrder (sweep cfg s).1 (sweep_pending_clear cfg s)
  have hdp : derivedPhase cfg.kinds (sweep cfg s).1.current cfg.topoOrder =
      ((sweep cfg s).1.current, []) :=
    derivedPhase_idem cfg.kinds cfg.topoOrder (sweep cfg s).1.current
      (sweep_newVal_fixed cfg s hg)
  show ({ current := (derivedPhase cfg.kinds
            (primaryPhase (sweep cfg s).1 cfg.primaryOrder).1.current cfg.topoOrder).1,
          pending := (primaryPhase (sweep cfg s).1 cfg.primaryOrder).1.pending },
        (primaryPhase (sweep cfg s).1 cfg.primaryOrder).2 ++
          (derivedPhase cfg.kinds
            (primaryPhase (sweep cfg s).1 cfg.primaryOrder).1.current cfg.topoOrder).2) =
      ((sweep cfg s).1, [])
  rw [hpp]
  show ({ current := (derivedPhase cfg.kinds (sweep cfg s).1.current cfg.topoOrder).1,
          pending := (sweep cfg s).1.pending },
        [] ++ (derivedPhase cfg.kinds (sweep cfg s).1.current cfg.topoOrder).2) =
      ((sweep cfg s).1, [])
  rw [hdp]
  rfl

theorem stepPrimary_kinds_sublist (s : Store) (k : Nat) :
    List.Sublist ((stepPrimary s k).2.map (fun r => r.kind)) [k] := by
  rw [stepPrimary_records]
  cases s.pending k with
  | none => simp
  | some v =>
      by_cases h : s.current k = some v
      · simp [h]
      · show List.Sublist (List.map (fun r => r.kind)
          (if s.current k = some v then ([] : List TransitionRecord)
           else [⟨k, s.current k, some v⟩])) [k]
        rw [if_neg h]
        show List.Sublist [k] [k]
        exact List.Sublist.refl [k]

theorem primaryPhase_kinds_sublist (order : List Nat) :
    ∀ s : Store, List.Sublist ((primaryPhase s order).2.map (fun r => r.kind)) order := by
  induction order with
  | nil => intro s; simp [primaryPhase]
  | cons j rest ih =>
      intro s
      have hrecs : (primaryPhase s (j :: rest)).2 =
          (stepPrimary s j).2 ++ (primaryPhase (stepPrimary s j).1 rest).2 := rfl
      rw [hrecs, List.map_append]
      exact List.Sublist.append (stepPrimary_kinds_sublist s j) (ih (stepPrimary s j).1)

theorem stepDerived_kinds_sublist (kinds : Nat → KindSpec) (cur : Nat → Option Nat)
    (k : Nat) : List.Sublist ((stepDerived kinds cur k).2.map (fun r => r.kind)) [k] := by
  by_cases h : newVal kinds cur k = cur k
  · have : (stepDerived kinds cur k).2 = [] := by
      show (if newVal kinds cur k = cur k then ([] : List TransitionRecord)
        else [⟨k, cur k, newVal kinds cur k⟩]) = []
      rw [if_pos h]
    rw [this]
    simp
  · have : (stepDerived kinds cur k).2 = [⟨k, cur k, newVal kinds cur k⟩] := by
      show (if newVal kinds cur k = cur k then ([] : List TransitionRecord)
        else [⟨k, cur k, newVal kinds cur k⟩]) = _
      rw [if_neg h]
    rw [this]
    show List.Sublist [k] [k]
    exact List.Sublist.refl [k]

theorem derivedPhase_kinds_sublist (kinds : Nat → KindSpec) (order : List Nat) :
    ∀ cur : Nat → Option Nat,
      List.Sublist ((derivedPhase kinds cur order).2.map (fun r => r.kind)) order := by
  induction order with
  | nil => intro cur; simp [derivedPhase]
  | cons j rest ih =>
      intro cur
      have hrecs : (derivedPhase kinds cur (j :: rest)).2 =
          (stepDerived kinds cur j).2 ++
            (derivedPhase kinds (stepDerived kinds cur j).1 rest).2 := rfl
      rw [hrecs, List.map_append]
      exact List.Sublist.append (stepDerived_kinds_sublist kinds cur j)
        (ih (stepDerived kinds cur j).1)

theorem sweep_kinds_sublist (cfg : Config) (s : Store) :
    List.Sublist (((sweep cfg s).2).map (fun r => r.kind)) (cfg.primaryOrder ++ cfg.topoOrder) := by
  rw [sweep_records_eq, List.map_append]
  exact List.Sublist.append (primaryPhase_kinds_sublist cfg.primaryOrder s)
    (derivedPhase_kinds_sublist cfg.kinds cfg.topoOrder
      (primaryPhase s cfg.primaryOrder).1.current)

theorem sweep_derivation_general (cfg : Config) (s : Store) (h : wf cfg = true) :
    ∀ k ∈ cfg.topoOrder,
      (sweep cfg s).1.current k =
        newValMix cfg.kinds s.current (sweep cfg s).1.current k := by
  intro k hk
  rcases wf_parts cfg h with ⟨hg, _, hdisj⟩
  have hspec := derivedPhase_spec cfg.kinds cfg.topoOrder
    (primaryPhase s cfg.primaryOrder).1.current hg k hk
  have hold : (primaryPhase s cfg.primaryOrder).1.current k = s.current k :=
    primaryPhase_current_notmem cfg.primaryOrder s k (hdisj k hk)
  have hstep : (sweep cfg s).1.current k =
      newValMix cfg.kinds (primaryPhase s cfg.primaryOrder).1.current
        (sweep cfg s).1.current k := hspec
  rw [hstep]
  exact newValMix_congr cfg.kinds (primaryPhase s cfg.primaryOrder).1.current
    s.current (sweep cfg s).1.current (sweep cfg s).1.current k hold (fun i _ => rfl)

theorem sweep_primary_applied (cfg : Config) (s : Store) (k v : Nat) (h : wf cfg = true)
    (hk : k ∈ cfg.primaryOrder) (hp : s.pending k = some v) :
    (sweep cfg s).1.current k = some v := by
  rcases wf_parts cfg h with ⟨_, hnp, hdisj⟩
  have hkt : k ∉ cfg.topoOrder := fun hm => hdisj k hm hk
  rcases primaryPhase_at k cfg.primaryOrder s hnp hk with ⟨hcur, _⟩
  rw [sweep_current_eq, derivedPhase_current_notmem cfg.kinds cfg.topoOrder _ k hkt,
    hcur, hp]

theorem nodupB_iff (l : List Nat) : nodupB l = true ↔ l.Nodup := by
  induction l with
  | nil => simp [nodupB]
  | cons k rest ih => simp [nodupB, List.nodup_cons, ih]

theorem topoLoop_good (kinds : Nat → KindSpec) :
    ∀ (fuel : Nat) (remaining ord : List Nat),
      remaining.Nodup → topoLoop kinds fuel remaining = Except.ok ord →
      goodOrder kinds ord = true ∧ (∀ x, x ∈ ord ↔ x ∈ remaining) := by
  intro fuel
  induction fuel with
  | zero =>
      intro remaining ord hnd h
      cases remaining with
      | nil =>
          simp only [topoLoop] at h
          injection h with h2
          subst h2
          exact ⟨rfl, fun x => Iff.rfl⟩
      | cons k0 rest =>
          simp only [topoLoop] at h
          exact Except.noConfusion h
  | succ fuel ih =>
      intro remaining ord hnd h
      cases remaining with
      | nil =>
          simp only [topoLoop] at h
          injection h with h2
          subst h2
          exact ⟨rfl, fun x => Iff.rfl⟩
      | cons k0 rest =>
          simp only [topoLoop] at h
          cases hf : (k0 :: rest).find? (readyB kinds (k0 :: rest)) with
          | none =>
              rw [hf] at h
              exact Except.noConfusion h
          | some k =>
              rw [hf] at h
              have h' : Except.map (fun ord => k :: ord)
                  (topoLoop kinds fuel ((k0 :: rest).erase k)) = Except.ok ord := h
              cases hrec : topoLoop kinds fuel ((k0 :: rest).erase k) with
              | error e =>
                  rw [hrec] at h'
                  exact Except.noConfusion h'
              | ok ord' =>
                  rw [hrec] at h'
                  simp only [Except.map] at h'
                  injection h' with h2
                  subst h2
                  have hkmem : k ∈ k0 :: rest := List.mem_of_find?_eq_some hf
                  have hready : readyB kinds (k0 :: rest) k = true := List.find?_some hf
                  have hdepsk : ∀ j ∈ deps kinds k, j ∉ k0 :: rest := by
                    intro j hj hmem
                    have := List.all_eq_true.mp hready j hj
                    simp at this
                    rcases List.mem_cons.mp hmem with he | hm
                    · exact this.1 he
                    · exact this.2 hm
                  have hnd' : ((k0 :: rest).erase k).Nodup := hnd.erase k
                  rcases ih ((k0 :: rest).erase k) ord' hnd' hrec with ⟨hg', hiff'⟩
                  have hknotord : k ∉ ord' := by
                    intro hmem
                    have := (hiff' k).mp hmem
                    rw [hnd.mem_erase_iff] at this
                    exact this.1 rfl
                  constructor
                  · unfold goodOrder
                    simp only [Bool.and_eq_true, List.all_eq_true]
                    refine ⟨⟨?_, ?_⟩, hg'⟩
                    · simp [hknotord]
                    · intro j hj
                      have hjnot := hdepsk j hj
                      have hjk : j ≠ k := fun he => hjnot (he ▸ hkmem)
                      have hjord : j ∉ ord' := by
                        intro hmem
                        exact hjnot (List.mem_of_mem_erase ((hiff' j).mp hmem))
                      simp [hjk, hjord]
                  · intro x
                    constructor
                    · intro hx
                      rcases List.mem_cons.mp hx with he | hm
                      · exact he ▸ hkmem
                      · exact List.mem_of_mem_erase ((hiff' x).mp hm)
                    · intro hx
                      by_cases hxk : x = k
                      · exact hxk ▸ List.mem_cons_self k ord'
                      · apply List.mem_cons_of_mem
                        exact (hiff' x).mpr (hnd.mem_erase_iff.mpr ⟨hxk, hx⟩)

theorem register_ok (decl : List (Nat × KindSpec)) (cfg : Config)
    (h : register decl = Except.ok cfg) :
    cfg.kinds = mkKinds decl ∧ goodOrder cfg.kinds cfg.topoOrder = true ∧
      (∀ x, x ∈ cfg.topoOrder ↔ x ∈ derivedKinds decl) := by
  unfold register at h
  by_cases hd : nodupB (decl.map (fun p => p.1)) = true
  · rw [if_pos hd] at h
    cases ht : topoLoop (mkKinds decl) (derivedKinds decl).length (derivedKinds decl) with
    | error e =>
        rw [ht] at h
        exact Except.noConfusion h
    | ok ord =>
        rw [ht] at h
        injection h with h2
        subst h2
        have hkeys : (decl.map (fun p => p.1)).Nodup := (nodupB_iff _).mp hd
        have hsub : List.Sublist (derivedKinds decl) (decl.map (fun p => p.1)) := by
          unfold derivedKinds
          exact List.Sublist.map (fun p => p.1) (List.filter_sublist decl)
        have hndk : (derivedKinds decl).Nodup := hkeys.sublist hsub
        rcases topoLoop_good (mkKinds decl) (derivedKinds decl).length
          (derivedKinds decl) ord hndk ht with ⟨hg, hiff⟩
        exact ⟨rfl, hg, hiff⟩
  · rw [if_neg hd] at h
    exact Except.noConfusion h

theorem chainB_mem (kinds : Nat → KindSpec) :
    ∀ (l : List Nat) (a : Nat), chainB kinds a l = true →
      ∀ k ∈ a :: l, k = l.getLastD a ∨ ∃ s ∈ a :: l, s ∈ deps kinds k := by
  intro l
  induction l with
  | nil =>
      intro a _ k hk
      left
      rcases List.mem_cons.mp hk with he | hm
      · exact he
      · simp at hm
  | cons b rest ih =>
      intro a hch k hk
      simp only [chainB, Bool.and_eq_true, decide_eq_true_eq] at hch
      rcases hch with ⟨hab, hch'⟩
      rcases List.mem_cons.mp hk with hk1 | hk2
      · subst hk1
        right
        exact ⟨b, List.mem_cons_of_mem k (List.mem_cons_self b rest), hab⟩
      · rcases ih b hch' k hk2 with h1 | ⟨s, hs, hsd⟩
        · left
          rw [List.getLastD_cons]
          exact h1
        · right
          exact ⟨s, List.mem_cons_of_mem a hs, hsd⟩

theorem cycleB_succ (kinds : Nat → KindSpec) (c : List Nat)
    (h : isCycleB kinds c = true) : ∀ k ∈ c, ∃ s ∈ c, s ∈ deps kinds k := by
  cases c with
  | nil => intro k hk; simp at hk
  | cons k0 rest =>
      simp only [isCycleB, Bool.and_eq_true, decide_eq_true_eq] at h
      rcases h with ⟨hch, hclose⟩
      intro k hk
      rcases chainB_mem kinds rest k0 hch k hk with h1 | h2
      · exact ⟨k0, List.mem_cons_self k0 rest, h1.symm ▸ hclose⟩
      · exact h2

theorem goodOrder_no_cycle (kinds : Nat → KindSpec) :
    ∀ (order : List Nat), goodOrder kinds order = true →
      ∀ (c : List Nat), (∀ k ∈ c, k ∈ order) →
        (∀ k ∈ c, ∃ s ∈ c, s ∈ deps kinds k) → c = [] := by
  intro order
  induction order with
  | nil =>
      intro _ c hsub _
      cases c with
      | nil => rfl
      | cons a t => exact absurd (hsub a (List.mem_cons_self a t)) (by simp)
  | cons k0 rest ih =>
      intro hg c hsub hsucc
      rcases goodOrder_cons kinds k0 rest hg with ⟨_, hdeps, h3⟩
      by_cases hk0 : k0 ∈ c
      · rcases hsucc k0 hk0 with ⟨s, hs, hsd⟩
        rcases hdeps s hsd with ⟨hsk, hsr⟩
        rcases List.mem_cons.mp (hsub s hs) with he | hm
        · exact absurd he hsk
        · exact absurd hm hsr
      · apply ih h3 c ?_ hsucc
        intro k hk
        rcases List.mem_cons.mp (hsub k hk) with he | hm
        · exact absurd (he ▸ hk) hk0
        · exact hm

theorem register_rejects_aux (decl : List (Nat × KindSpec)) (c : List Nat)
    (hcyc : isCycleB (mkKinds decl) c = true)
    (hsub : ∀ k ∈ c, k ∈ derivedKinds decl) :
    ∃ e, register decl = Except.error e := by
  cases hreg : register decl with
  | error e => exact ⟨e, rfl⟩
  | ok cfg =>
      rcases register_ok decl cfg hreg with ⟨hkinds, hg, hmem⟩
      have hsub' : ∀ k ∈ c, k ∈ cfg.topoOrder := fun k hk => (hmem k).mpr (hsub k hk)
      have hsucc := cycleB_succ (mkKinds decl) c hcyc
      rw [hkinds] at hg
      have hc : c = [] := goodOrder_no_cycle (mkKinds decl) cfg.topoOrder hg c hsub' hsucc
      rw [hc] at hcyc
      exact absurd hcyc (by simp [isCycleB])

theorem any_kind_filter (recs : List TransitionRecord) (K : Nat)
    (p : TransitionRecord → Bool) :
    (recs.any (fun r => (r.kind == K) && p r) = true) ↔
      ∃ r ∈ List.filter (fun r => r.kind == K) recs, p r = true := by
  simp only [List.any_eq_true, Bool.and_eq_true, List.mem_filter]
  constructor
  · rintro ⟨r, hr, hk, hp⟩
    exact ⟨r, ⟨hr, hk⟩, hp⟩
  · rintro ⟨r, ⟨hr, hk⟩, hp⟩
    exact ⟨r, hr, hk, hp⟩

theorem prepareViews_get (views : List (Nat × Option DistanceFog)) :
    ∀ (off i : Nat) (h : i < views.length),
      (prepareViews off views).1.get? i = some (gpuFogFor (views.get ⟨i, h⟩).2) ∧
      (prepareViews off views).2.get? i = some ((views.get ⟨i, h⟩).1, off + i) := by
  induction views with
  | nil => intro off i h; simp at h
  | cons v rest ih =>
      intro off i h
      cases i with
      | zero =>
          cases v with
          | mk entity fog => exact ⟨rfl, rfl⟩
      | succ i' =>
          have h' : i' < rest.length := Nat.lt_of_succ_lt_succ h
          have hit := ih (off + 1) i' h'
          cases v with
          | mk entity fog =>
              constructor
              · exact hit.1
              · have harith : off + 1 + i' = off + (i' + 1) := by omega
                rw [← harith]
                exact hit.2

/-- C1 counterexample: a Sub kind IS accepted by the pending-value mutation
entry point.  The crate-root documentation
(src/crates/bevy_state/src/lib.rs lines 11-13) states that SubStates "can
be changed manually using NextState<S>", refuting the claim that for every
Sub kind no external request can ever set its value this way. -/
theorem mutation_entry_primary_only_refuted :
    freelyMutable (KindSpec.sub 0 (fun v => v == some 1) 5) = true := rfl

/-- C1 (amended): the pending-value mutation entry point accepts Primary
and Sub kinds — Sub states can be changed manually via NextState exactly
like Primary states — while Computed kinds can never be set this way, and
the restriction is structural: mutability is a total function of the kind's
capability variant, with no runtime error branch. -/
theorem mutation_entry_capabilities :
    freelyMutable KindSpec.primary = true ∧
    (∀ parent pr dflt, freelyMutable (KindSpec.sub parent pr dflt) = true) ∧
    (∀ sources f, freelyMutable (KindSpec.computed sources f) = false) :=
  ⟨rfl, fun _ _ _ => rfl, fun _ _ => rfl⟩

/-- C2: one transition-engine sweep reaches a fixed point on every acyclic
(topologically ordered) dependency graph: after a pass, every Sub/Computed
kind's stored value re-derives to itself from the already-updated values,
and re-running the sweep with no new pending requests leaves the store
unchanged and produces zero Transition Records. -/
theorem sweep_single_pass_fixed_point (cfg : Config) (s : Store)
    (hg : goodOrder cfg.kinds cfg.topoOrder = true) :
    (∀ k ∈ cfg.topoOrder,
      newVal cfg.kinds (sweep cfg s).1.current k = (sweep cfg s).1.current k) ∧
    sweep cfg ((sweep cfg s).1) = ((sweep cfg s).1, []) :=
  ⟨sweep_newVal_fixed cfg s hg, sweep_idem_aux cfg s hg⟩

theorem sweep_single_pass_fixed_point_witness :
    goodOrder chainCfg.kinds chainCfg.topoOrder = true ∧
    ((∀ k ∈ chainCfg.topoOrder,
        newVal chainCfg.kinds (sweep chainCfg chainStore).1.current k =
          (sweep chainCfg chainStore).1.current k) ∧
      sweep chainCfg ((sweep chainCfg chainStore).1) =
        ((sweep chainCfg chainStore).1, [])) :=
  ⟨by decide, sweep_single_pass_fixed_point chainCfg chainStore (by decide)⟩

/-- C3: Transition Records always come out in the fixed order Primary kinds
first (request order) then Sub/Computed kinds (topological order) — the
record kinds form a sublist of primaryOrder ++ topoOrder for every
configuration and store — and on the chain Primary 0 → Sub 1 (predicate:
parent holds 1, default-on-activation 5) → Computed 2 (ten times the value
of kind 1), requesting 0 : 0 → 1 yields exactly the records [kind 0, 
kind 1, kind 2], the Sub record showing old = absent and
new = default-on-activation, and the Computed record reflecting the Sub's
new value. -/
theorem transition_record_ordering :
    (∀ (cfg : Config) (s : Store),
      List.Sublist (((sweep cfg s).2).map (fun r => r.kind))
        (cfg.primaryOrder ++ cfg.topoOrder)) ∧
    (sweep chainCfg chainStore).2 =
      [⟨0, some 0, some 1⟩, ⟨1, none, some 5⟩, ⟨2, none, some 50⟩] :=
  ⟨fun cfg s => sweep_kinds_sublist cfg s, by decide⟩

/-- C4: absence propagates through the graph within a single sweep, never
faulting: for every Sub kind the predicate is evaluated against the
already-updated parent value — false gives absent regardless of prior
value, true gives the prior (pre-sweep) value when present and otherwise
the kind-supplied default-on-activation value — and every Computed kind is
derivation(sources) over the already-updated source values when all are
present and absent otherwise; in particular a Sub kind turning active lets
dependent Computed kinds recompute within the same sweep. -/
theorem absence_propagation (cfg : Config) (s : Store) (h : wf cfg = true) :
    ∀ k ∈ cfg.topoOrder,
      (∀ parent pr dflt, cfg.kinds k = KindSpec.sub parent pr dflt →
        (sweep cfg s).1.current k =
          (if pr ((sweep cfg s).1.current parent) then
            some ((s.current k).getD dflt) else none)) ∧
      (∀ sources f, cfg.kinds k = KindSpec.computed sources f →
        (sweep cfg s).1.current k =
          (seqOpt (sources.map (sweep cfg s).1.current)).map f) := by
  intro k hk
  have hgen := sweep_derivation_general cfg s h k hk
  constructor
  · intro parent pr dflt hkind
    rw [hgen]
    simp only [newValMix, hkind]
  · intro sources f hkind
    rw [hgen]
    simp only [newValMix, hkind]

theorem absence_propagation_witness :
    wf chainCfg = true ∧
    (∀ k ∈ chainCfg.topoOrder,
      (∀ parent pr dflt, chainCfg.kinds k = KindSpec.sub parent pr dflt →
        (sweep chainCfg chainStore).1.current k =
          (if pr ((sweep chainCfg chainStore).1.current parent) then
            some ((chainStore.current k).getD dflt) else none)) ∧
      (∀ sources f, chainCfg.kinds k = KindSpec.computed sources f →
        (sweep chainCfg chainStore).1.current k =
          (seqOpt (sources.map (sweep chainCfg chainStore).1.current)).map f)) :=
  ⟨by decide, absence_propagation chainCfg chainStore (by decide)⟩

/-- C5: pending requests are last-write-wins with capacity one: after two
requests on the same Primary kind in one pass, only the second value is
pending, it is the value applied by the next sweep, and the pass produces
exactly one Transition Record for that kind — or zero when the second
value equals the prior current value. -/
theorem pending_last_write_wins (cfg : Config) (s : Store) (k v1 v2 : Nat)
    (h : wf cfg = true) (hk : k ∈ cfg.primaryOrder) :
    (set_pending (set_pending s k v1) k v2).pending k = some v2 ∧
    (sweep cfg (set_pending (set_pending s k v1) k v2)).1.current k = some v2 ∧
    List.filter (fun r => r.kind == k)
        (sweep cfg (set_pending (set_pending s k v1) k v2)).2 =
      (if s.current k = some v2 then [] else [⟨k, s.current k, some v2⟩]) := by
  have hpend : (set_pending (set_pending s k v1) k v2).pending k = some v2 := by
    show (if k = k then some v2 else _) = some v2
    rw [if_pos rfl]
  have hcur : (set_pending (set_pending s k v1) k v2).current = s.current := rfl
  have happ : (sweep cfg (set_pending (set_pending s k v1) k v2)).1.current k = some v2 :=
    sweep_primary_applied cfg (set_pending (set_pending s k v1) k v2) k v2 h hk hpend
  refine ⟨hpend, happ, ?_⟩
  have honce := sweep_record_once cfg (set_pending (set_pending s k v1) k v2) k h
  rw [hcur] at honce
  rw [honce, happ]
  by_cases hc : s.current k = some v2
  · rw [if_pos hc.symm, if_pos hc]
  · rw [if_neg (fun he => hc he.symm), if_neg hc]

theorem pending_last_write_wins_witness :
    wf chainCfg = true ∧ 0 ∈ chainCfg.primaryOrder ∧
    ((set_pending (set_pending chainStore 0 7) 0 9).pending 0 = some 9 ∧
     (sweep chainCfg (set_pending (set_pending chainStore 0 7) 0 9)).1.current 0 =
       some 9 ∧
     List.filter (fun r => r.kind == 0)
         (sweep chainCfg (set_pending (set_pending chainStore 0 7) 0 9)).2 =
       (if chainStore.current 0 = some 9 then []
        else [⟨0, chainStore.current 0, some 9⟩])) :=
  ⟨by decide, by decide,
   pending_last_write_wins chainCfg chainStore 0 7 9 (by decide) (by decide)⟩

/-- C6: a dependency cycle is a fatal registration-time error: whenever the
declared graph contains a cycle among the Sub/Computed kinds, registration
returns a configuration error (detected by topological-sort failure), so no
runtime configuration — and hence no transition pass, which only ever runs
on a successfully registered configuration — exists for it; conversely
every configuration registration does produce has a good (acyclic,
topologically ordered) cached order. -/
theorem registration_rejects_cycles :
    (∀ (decl : List (Nat × KindSpec)) (c : List Nat),
        isCycleB (mkKinds decl) c = true →
        (∀ k ∈ c, k ∈ derivedKinds decl) →
        ∃ e, register decl = Except.error e) ∧
    (∀ (decl : List (Nat × KindSpec)) (cfg : Config),
        register decl = Except.ok cfg →
        goodOrder cfg.kinds cfg.topoOrder = true) :=
  ⟨fun decl c h1 h2 => register_rejects_aux decl c h1 h2,
   fun decl cfg h => (register_ok decl cfg h).2.1⟩

theorem registration_rejects_cycles_witness :
    isCycleB (mkKinds cycDecl) [1, 2] = true ∧
    (∀ k ∈ ([1, 2] : List Nat), k ∈ derivedKinds cycDecl) ∧
    (∃ e, register cycDecl = Except.error e) :=
  ⟨by decide, by decide,
   registration_rejects_cycles.1 cycDecl [1, 2] (by decide) (by decide)⟩

/-- C7: scoped cleanup is exact: after a sweep, a tag "despawn on exit of
value V" for kind K is triggered iff K's value was V before the sweep and
is no longer V after it — so the tagged entity survives every pass where K
stays at V, is queued for destruction exactly on the pass whose Transition
Record for K shows old = V and new ≠ V, and is never destroyed on a pass
where K was already ≠ V before and after; the analogous exact condition
(new = V and old ≠ V) governs the enter polarity. -/
theorem scoped_cleanup_exactness (cfg : Config) (s : Store) (K V : Nat)
    (h : wf cfg = true) :
    (tagTriggered ⟨K, V, Polarity.onExit⟩ (sweep cfg s).2 = true ↔
      (s.current K = some V ∧ (sweep cfg s).1.current K ≠ some V)) ∧
    (tagTriggered ⟨K, V, Polarity.onEnter⟩ (sweep cfg s).2 = true ↔
      ((sweep cfg s).1.current K = some V ∧ s.current K ≠ some V)) := by
  have honce := sweep_record_once cfg s K h
  have hexit : tagTriggered ⟨K, V, Polarity.onExit⟩ (sweep cfg s).2 = true ↔
      ∃ r ∈ List.filter (fun r => r.kind == K) (sweep cfg s).2,
        (r.old == some V && !(r.new == some V)) = true :=
    any_kind_filter (sweep cfg s).2 K (fun r => r.old == some V && !(r.new == some V))
  have henter : tagTriggered ⟨K, V, Polarity.onEnter⟩ (sweep cfg s).2 = true ↔
      ∃ r ∈ List.filter (fun r => r.kind == K) (sweep cfg s).2,
        (r.new == some V && !(r.old == some V)) = true :=
    any_kind_filter (sweep cfg s).2 K (fun r => r.new == some V && !(r.old == some V))
  by_cases hchg : (sweep cfg s).1.current K = s.current K
  · rw [if_pos hchg] at honce
    rw [honce] at hexit henter
    constructor
    · rw [hexit]
      constructor
      · rintro ⟨r, hr, _⟩
        simp at hr
      · rintro ⟨h1, h2⟩
        exact absurd (hchg.trans h1) h2
    · rw [henter]
      constructor
      · rintro ⟨r, hr, _⟩
        simp at hr
      · rintro ⟨h1, h2⟩
        exact absurd (hchg ▸ h1) h2
  · rw [if_neg hchg] at honce
    rw [honce] at hexit henter
    constructor
    · rw [hexit]
      simp only [List.mem_singleton]
      constructor
      · rintro ⟨r, hr, hp⟩
        subst hr
        simp only [Bool.and_eq_true, beq_iff_eq, Bool.not_eq_true',
          beq_eq_false_iff_ne] at hp
        exact hp
      · rintro ⟨h1, h2⟩
        refine ⟨⟨K, s.current K, (sweep cfg s).1.current K⟩, rfl, ?_⟩
        simp only [Bool.and_eq_true, beq_iff_eq, Bool.not_eq_true',
          beq_eq_false_iff_ne]
        exact ⟨h1, h2⟩
    · rw [henter]
      simp only [List.mem_singleton]
      constructor
      · rintro ⟨r, hr, hp⟩
        subst hr
        simp only [Bool.and_eq_true, beq_iff_eq, Bool.not_eq_true',
          beq_eq_false_iff_ne] at hp
        exact hp
      · rintro ⟨h1, h2⟩
        refine ⟨⟨K, s.current K, (sweep cfg s).1.current K⟩, rfl, ?_⟩
        simp only [Bool.and_eq_true, beq_iff_eq, Bool.not_eq_true',
          beq_eq_false_iff_ne]
        exact ⟨h1, h2⟩

theorem scoped_cleanup_exactness_witness :
    wf chainCfg = true ∧
    ((tagTriggered ⟨0, 0, Polarity.onExit⟩ (sweep chainCfg chainStore).2 = true ↔
       (chainStore.current 0 = some 0 ∧
         (sweep chainCfg chainStore).1.current 0 ≠ some 0)) ∧
     (tagTriggered ⟨0, 0, Polarity.onEnter⟩ (sweep chainCfg chainStore).2 = true ↔
       ((sweep chainCfg chainStore).1.current 0 = some 0 ∧
         chainStore.current 0 ≠ some 0))) :=
  ⟨by decide, scoped_cleanup_exactness chainCfg chainStore 0 0 (by decide)⟩

/-- C8: the run conditions are pure and exact: state_changed is true in a
pass iff a Transition Record for the kind exists in that pass — which
happens iff the sweep actually changed the kind's stored value — and
in_state returns exactly whether the current value equals the given value,
with an absent current value never equal to any concrete value; both are
total functions of the pass snapshot, so re-evaluation cannot mutate
anything or change the result. -/
theorem run_condition_correctness (cfg : Config) (s : Store) (K V : Nat)
    (h : wf cfg = true) :
    (state_changed (sweep cfg s).2 K = true ↔
      ∃ r ∈ (sweep cfg s).2, r.kind = K) ∧
    (state_changed (sweep cfg s).2 K = true ↔
      (sweep cfg s).1.current K ≠ s.current K) ∧
    (in_state (sweep cfg s).1.current K V = true ↔
      (sweep cfg s).1.current K = some V) ∧
    ((sweep cfg s).1.current K = none →
      in_state (sweep cfg s).1.current K V = false) := by
  have honce := sweep_record_once cfg s K h
  have hmem : state_changed (sweep cfg s).2 K = true ↔
      ∃ r ∈ (sweep cfg s).2, r.kind = K := by
    simp [state_changed, List.any_eq_true]
  refine ⟨hmem, ?_, ?_, ?_⟩
  · rw [hmem]
    by_cases hchg : (sweep cfg s).1.current K = s.current K
    · rw [if_pos hchg] at honce
      constructor
      · rintro ⟨r, hr, hk⟩
        have : r ∈ List.filter (fun r => r.kind == K) (sweep cfg s).2 :=
          List.mem_filter.mpr ⟨hr, by simp [hk]⟩
        rw [honce] at this
        simp at this
      · intro hne
        exact absurd hchg hne
    · rw [if_neg hchg] at honce
      constructor
      · intro _
        exact hchg
      · intro _
        have hsingle : (⟨K, s.current K, (sweep cfg s).1.current K⟩ : TransitionRecord) ∈
            List.filter (fun r => r.kind == K) (sweep cfg s).2 := by
          rw [honce]
          exact List.mem_singleton.mpr rfl
        exact ⟨⟨K, s.current K, (sweep cfg s).1.current K⟩,
          (List.mem_filter.mp hsingle).1, rfl⟩
  · simp [in_state]
  · intro hnone
    simp [in_state, hnone]

theorem run_condition_correctness_witness :
    wf chainCfg = true ∧
    ((state_changed (sweep chainCfg chainStore).2 0 = true ↔
       ∃ r ∈ (sweep chainCfg chainStore).2, r.kind = 0) ∧
     (state_changed (sweep chainCfg chainStore).2 0 = true ↔
       (sweep chainCfg chainStore).1.current 0 ≠ chainStore.current 0) ∧
     (in_state (sweep chainCfg chainStore).1.current 0 1 = true ↔
       (sweep chainCfg chainStore).1.current 0 = some 1) ∧
     ((sweep chainCfg chainStore).1.current 0 = none →
       in_state (sweep chainCfg chainStore).1.current 0 1 = false)) :=
  ⟨by decide, run_condition_correctness chainCfg chainStore 0 1 (by decide)⟩

/-- C9: for a view entity that has an ExtractedView but no DistanceFog
component, prepare_fog writes a GpuFog uniform whose mode is
GPU_FOG_MODE_OFF and whose remaining fields are their zero defaults, and
inserts a ViewFogUniformOffset on that entity holding the offset at which
that uniform was written. -/
theorem prepare_fog_no_fog_view (views : List (Nat × Option DistanceFog)) (i : Nat)
    (h : i < views.length) (hnone : (views.get ⟨i, h⟩).2 = none) :
    (prepare_fog views).1.get? i =
      some { base_color := vec4Zero, directional_light_color := vec4Zero,
             be := vec3Zero, directional_light_exponent := 0, bi := vec3Zero,
             mode := GPU_FOG_MODE_OFF } ∧
    (prepare_fog views).2.get? i = some ((views.get ⟨i, h⟩).1, i) := by
  have hit := prepareViews_get views 0 i h
  constructor
  · show (prepareViews 0 views).1.get? i = _
    rw [hit.1, hnone]
    rfl
  · show (prepareViews 0 views).2.get? i = _
    rw [hit.2, Nat.zero_add]

theorem prepare_fog_no_fog_view_witness :
    (0 < ([( (42 : Nat), (none : Option DistanceFog))] : List (Nat × Option DistanceFog)).length) ∧
    ((prepare_fog [((42 : Nat), (none : Option DistanceFog))]).1.get? 0 =
      some { base_color := vec4Zero, directional_light_color := vec4Zero,
             be := vec3Zero, directional_light_exponent := 0, bi := vec3Zero,
             mode := GPU_FOG_MODE_OFF } ∧
     (prepare_fog [((42 : Nat), (none : Option DistanceFog))]).2.get? 0 =
       some ((([((42 : Nat), (none : Option DistanceFog))] :
         List (Nat × Option DistanceFog)).get ⟨0, by decide⟩).1, 0)) :=
  ⟨by decide,
   prepare_fog_no_fog_view [((42 : Nat), (none : Option DistanceFog))] 0
     (by decide) rfl⟩

/-- C10: for every view with a DistanceFog, the uniform prepare_fog writes
for it is exactly the claim's description gpuFogSpec: the four falloff
variants map to the distinct mode constants 1, 2, 3, 4, the be/bi fields
are packed per variant, and the colour and exponent fields are copied from
the fog component in every variant. -/
theorem prepare_fog_falloff_mapping (views : List (Nat × Option DistanceFog))
    (i : Nat) (h : i < views.length) (fog : DistanceFog)
    (hfog : (views.get ⟨i, h⟩).2 = some fog) :
    (prepare_fog views).1.get? i = some (gpuFogSpec fog) := by
  have hit := prepareViews_get views 0 i h
  show (prepareViews 0 views).1.get? i = _
  rw [hit.1, hfog]
  obtain ⟨c, dlc, dle, falloff⟩ := fog
  cases falloff <;> rfl

theorem prepare_fog_falloff_mapping_witness :
    ((([((7 : Nat), some (DistanceFog.mk ⟨1, 0, 0, 1⟩ ⟨0, 1, 0, 1⟩ 8
        (FogFalloff.Linear 2 3)))] : List (Nat × Option DistanceFog)).get
          ⟨0, by decide⟩).2 =
        some (DistanceFog.mk ⟨1, 0, 0, 1⟩ ⟨0, 1, 0, 1⟩ 8 (FogFalloff.Linear 2 3))) ∧
    (prepare_fog [((7 : Nat), some (DistanceFog.mk ⟨1, 0, 0, 1⟩ ⟨0, 1, 0, 1⟩ 8
        (FogFalloff.Linear 2 3)))]).1.get? 0 =
      some (gpuFogSpec
        (DistanceFog.mk ⟨1, 0, 0, 1⟩ ⟨0, 1, 0, 1⟩ 8 (FogFalloff.Linear 2 3))) :=
  ⟨rfl,
   prepare_fog_falloff_mapping
     [((7 : Nat), some (DistanceFog.mk ⟨1, 0, 0, 1⟩ ⟨0, 1, 0, 1⟩ 8
       (FogFalloff.Linear 2 3)))] 0 (by decide)
     (DistanceFog.mk ⟨1, 0, 0, 1⟩ ⟨0, 1, 0, 1⟩ 8 (FogFalloff.Linear 2 3)) rfl⟩
